import Mathlib

/-!
# Verification of the news sentiment pipeline

A shallow embedding of `src/sentiment_analysis_pipeline.py`. Text is modelled as
`List Char` (a Python `str` is a sequence of Unicode code points; Lean `Char` is a
Unicode scalar value). Each `re.sub` call of the source is implemented as an
equivalent left-to-right scanner over the character list; the external
collaborators (HTTP transport, HTML parser output, sentiment classifier,
summarization model, ftfy) are oracle parameters.
-/

namespace NewsPipeline

/-- The apostrophe character, U+0027, used by the replacement template of the
contraction-restoring substitution. -/
def apostropheChar : Char := Char.ofNat 39

/-- Python whitespace (the set matched by `\s` in `re` on `str`, and stripped by
`str.strip()`): TAB..CR, FS..US, SPACE, NEL, NBSP and the Unicode space separators. -/
def isPySpace (c : Char) : Bool :=
  (9 ≤ c.toNat && c.toNat ≤ 13) || (28 ≤ c.toNat && c.toNat ≤ 31) ||
  c.toNat == 32 || c.toNat == 133 || c.toNat == 160 || c.toNat == 0x1680 ||
  (0x2000 ≤ c.toNat && c.toNat ≤ 0x200a) || c.toNat == 0x2028 || c.toNat == 0x2029 ||
  c.toNat == 0x202f || c.toNat == 0x205f || c.toNat == 0x3000

/-- ASCII letter, the set matched by `[A-Za-z]`. -/
def isAsciiLetter (c : Char) : Bool :=
  (65 ≤ c.toNat && c.toNat ≤ 90) || (97 ≤ c.toNat && c.toNat ≤ 122)

/-- ASCII lowercase letter, the set matched by `[a-z]`. -/
def isAsciiLower (c : Char) : Bool := 97 ≤ c.toNat && c.toNat ≤ 122

def isAsciiDigit (c : Char) : Bool := 48 ≤ c.toNat && c.toNat ≤ 57

/-- Letters of the Latin-1 supplement (À-Ö, Ø-ö, ø-ÿ). -/
def isLatin1Letter (c : Char) : Bool :=
  (0xC0 ≤ c.toNat && c.toNat ≤ 0xD6) || (0xD8 ≤ c.toNat && c.toNat ≤ 0xF6) ||
  (0xF8 ≤ c.toNat && c.toNat ≤ 0xFF)

/-- Word character for the `\b` boundary of Python `re` on `str` (`[A-Za-z0-9_]`
plus further Unicode letters; modelled for the Basic Latin and Latin-1 range,
which covers every character of the concrete inputs below). -/
def isWordChar (c : Char) : Bool :=
  isAsciiLetter c || isAsciiDigit c || c == '_' || isLatin1Letter c

/-- Lowercase letter (ASCII a-z plus the lowercase Latin-1 letters ß-ö, ø-ÿ). -/
def isLowerLetter (c : Char) : Bool :=
  (97 ≤ c.toNat && c.toNat ≤ 122) || (0xDF ≤ c.toNat && c.toNat ≤ 0xF6) ||
  (0xF8 ≤ c.toNat && c.toNat ≤ 0xFF)

/-- Alphabetic character (modelled for the Basic Latin and Latin-1 range). -/
def isAlphaChar (c : Char) : Bool := isAsciiLetter c || isLatin1Letter c

/-- Printable ASCII: code points 32..126. -/
def isPrintableAscii (c : Char) : Bool := 32 ≤ c.toNat && c.toNat ≤ 126

/-- ASCII code point, the set matched by `[\x00-\x7F]`. -/
def isAsciiChar (c : Char) : Bool := c.toNat ≤ 127

/-- ASCII-only uppercase conversion, the effect of Python `str.upper` on ASCII. -/
def toUpperAscii (c : Char) : Char :=
  if 97 ≤ c.toNat && c.toNat ≤ 122 then Char.ofNat (c.toNat - 32) else c

/-- ASCII-only lowercase conversion, the effect of Python `str.lower` on ASCII. -/
def toLowerAscii (c : Char) : Char :=
  if 65 ≤ c.toNat && c.toNat ≤ 90 then Char.ofNat (c.toNat + 32) else c

/-- The characters `[smtdl]` of the contraction-restoring pattern. -/
def isSmtdl (c : Char) : Bool :=
  c == 's' || c == 'm' || c == 't' || c == 'd' || c == 'l'

/-- Sentence-terminal punctuation `.`, `!`, `?`. -/
def isTermPunct (c : Char) : Bool := c == '.' || c == '!' || c == '?'

/-- The punctuation class `[.,!?;:]` of `re.sub(r'\s([.,!?;:])', r'\1', ...)`. -/
def isPunctAfterSpace (c : Char) : Bool :=
  c == '.' || c == ',' || c == '!' || c == '?' || c == ';' || c == ':'

/-! ## Python string primitives -/

/-- `str.strip()` from the left: drop leading whitespace. -/
def pyStripL (l : List Char) : List Char := l.dropWhile isPySpace

/-- `str.strip()`: drop leading and trailing whitespace. -/
def pyStrip (l : List Char) : List Char :=
  ((pyStripL l).reverse.dropWhile isPySpace).reverse

/-- Word counter: `len(s.split())`, the number of maximal runs of
non-whitespace characters. The flag records whether the previous character was
part of a word. -/
def wordCountGo (inWord : Bool) : List Char → Nat
  | [] => 0
  | c :: rest =>
    if isPySpace c then wordCountGo false rest
    else (if inWord then 0 else 1) + wordCountGo true rest

def wordCount (l : List Char) : Nat := wordCountGo false l

/-- Python `str.capitalize()`: first character uppercased, every other
character lowercased (case mapping modelled for ASCII). -/
def pyCapitalize : List Char → List Char
  | [] => []
  | c :: rest => toUpperAscii c :: rest.map toLowerAscii

/-! ## The regex substitutions of the source, as equivalent scanners -/

/-- `re.sub(r"\s+", " ", text)`: every maximal run of whitespace becomes one
space. The flag records whether the previous character was whitespace. -/
def collapseWsGo (afterSpace : Bool) : List Char → List Char
  | [] => []
  | c :: rest =>
    if isPySpace c then
      if afterSpace then collapseWsGo true rest
      else ' ' :: collapseWsGo true rest
    else c :: collapseWsGo false rest

def collapseWs (l : List Char) : List Char := collapseWsGo false l

/-- `re.sub(r"[^\x00-\x7F]+", " ", text)`: every maximal run of non-ASCII
characters becomes one space. -/
def stripNonAsciiGo (inRun : Bool) : List Char → List Char
  | [] => []
  | c :: rest =>
    if isAsciiChar c then c :: stripNonAsciiGo false rest
    else if inRun then stripNonAsciiGo true rest
    else ' ' :: stripNonAsciiGo true rest

def stripNonAscii (l : List Char) : List Char := stripNonAsciiGo false l

/-- Head of the remaining input is a word boundary (end of string or a
non-word character): the trailing `\b` of the contraction pattern. -/
def headBoundary : List Char → Bool
  | [] => true
  | d :: _ => !isWordChar d

/-- `re.sub(r"\b([A-Za-z]+)\s([smtdl])\b", r"\1'\2", text)`, scanning left to
right without overlap. A match needs a maximal `[A-Za-z]+` run starting at a
word boundary, one whitespace character, one of `smtdl`, and a word boundary.
`prevWord` records whether the previous character was a word character;
`runActive` records whether the previous character was an ASCII letter whose
letter-run started at a word boundary (so a match can end at the current
whitespace). The run letters are emitted unchanged as they are scanned, which
matches the `\1` of the replacement. -/
def aposSubGo (prevWord runActive : Bool) : List Char → List Char
  | [] => []
  | [c] => [c]
  | c :: d :: rest =>
    if runActive && isPySpace c && isSmtdl d && headBoundary rest then
      apostropheChar :: d :: aposSubGo true false rest
    else
      c :: aposSubGo (isWordChar c) (isAsciiLetter c && (runActive || !prevWord))
        (d :: rest)

def aposSub (l : List Char) : List Char := aposSubGo false false l

/-- `re.sub(r'\s([.,!?;:])', r'\1', text)`: drop one whitespace character
standing directly before punctuation, scanning without overlap. -/
def rmSpaceBeforePunct : List Char → List Char
  | [] => []
  | [c] => [c]
  | c :: d :: rest =>
    if isPySpace c && isPunctAfterSpace d then d :: rmSpaceBeforePunct rest
    else c :: rmSpaceBeforePunct (d :: rest)

/-- Scanner state for `re.sub(r'(^|[.!?]\s+)([a-z])', ...)`: `neutral` (no
pending context), `afterPunct` (previous character was `.`, `!` or `?`),
`inWs` (a `[.!?]` followed by at least one whitespace character precedes). -/
inductive CapState | neutral | afterPunct | inWs
deriving DecidableEq

/-- The sentence-capitalization substitution after position 0: a lowercase
ASCII letter directly after `[.!?]\s+` is uppercased. -/
def capSentGo : CapState → List Char → List Char
  | _, [] => []
  | .inWs, c :: rest =>
    if isPySpace c then c :: capSentGo .inWs rest
    else if isAsciiLower c then toUpperAscii c :: capSentGo .neutral rest
    else if isTermPunct c then c :: capSentGo .afterPunct rest
    else c :: capSentGo .neutral rest
  | .afterPunct, c :: rest =>
    if isPySpace c then c :: capSentGo .inWs rest
    else if isTermPunct c then c :: capSentGo .afterPunct rest
    else c :: capSentGo .neutral rest
  | .neutral, c :: rest =>
    if isTermPunct c then c :: capSentGo .afterPunct rest
    else c :: capSentGo .neutral rest

/-- `re.sub(r'(^|[.!?]\s+)([a-z])', lambda m: m.group(1) + m.group(2).upper(), text)`:
the `^` alternative uppercases a lowercase first character, the rest of the
string is handled by `capSentGo`. -/
def capSent : List Char → List Char
  | [] => []
  | c :: rest =>
    if isAsciiLower c then toUpperAscii c :: capSentGo .neutral rest
    else capSentGo .neutral (c :: rest)

/-! ## clean_text (the Text Normalizer, source lines 24-39) -/

/-- Steps (a)+(b) of `clean_text` and step (b) of `clean_summary`:
`unicodedata.normalize("NFKC", text)` (and, in `clean_text`, the
`text.encode("utf-8", "ignore").decode("utf-8")` round trip, which is the
identity on any `str` without lone surrogates — Lean `Char` rules those out).
Real NFKC is *not* the identity in general (it can compose an ASCII letter
with a following combining mark into a single non-ASCII letter). This
constant therefore serves only the *concrete* evaluations of this file,
whose inputs consist solely of NFKC-invariant characters (ASCII, control
characters, composed Latin-1 letters such as é). Every universally
quantified theorem below is stated over an arbitrary normalization function
(`cleanTextWith nf`, `clean_summaryWith fix nf`) or conditions on the
normalized string, so none of them relies on this identity model. -/
def nfkcEncodeModel : List Char → List Char := id

/-- Steps (c)-(e) of `clean_text`: contraction restoration, non-ASCII removal,
whitespace collapse and trim, in source order. -/
def cleanTextCore (l : List Char) : List Char :=
  pyStrip (collapseWs (stripNonAscii (aposSub l)))

/-- `clean_text` with the Unicode-normalization step abstracted. -/
def cleanTextWith (nf : List Char → List Char) (l : List Char) : List Char :=
  cleanTextCore (nf l)

/-- `clean_text` (source lines 24-39). -/
def clean_text (l : List Char) : List Char := cleanTextWith nfkcEncodeModel l

/-! ## clean_summary (the Summary Post-Processor, source lines 112-139) -/

/-- `ftfy.fix_text`, the external encoding-repair library. Its default
configuration can genuinely change a string (mojibake repair, HTML
unescaping, quote uncurling, line-break fixes, control-character and
terminal-escape removal — the last can even empty a non-empty string), so
this identity constant serves only the *concrete* evaluations of this file,
whose inputs contain no mojibake indicator, no `&`, no curly quote, no
carriage return and no control character, and on which `fix_text` is the
identity. Every universally quantified theorem about the post-processor is
stated over an arbitrary repair function via `clean_summaryWith`, so none of
them relies on this identity model. -/
def ftfyFixText : List Char → List Char := id

/-- Append a terminal period: `if text and text[-1] not in ".!?": text += "."`. -/
def terminatePunct (l : List Char) : List Char :=
  match l.getLast? with
  | none => l
  | some c => if isTermPunct c then l else l ++ ['.']

/-- Steps (c)-(h) of `clean_summary`: whitespace collapse,
space-before-punctuation removal, sentence capitalization, contraction
restoration, terminal period, trim — in source order, applied to the string
produced by the repair and normalization steps. -/
def cleanSummaryCore (l : List Char) : List Char :=
  pyStrip (terminatePunct (aposSub (capSent (rmSpaceBeforePunct (collapseWs l)))))

/-- `clean_summary` with the two external text-rewriting steps (ftfy repair
and Unicode normalization) abstracted. -/
def clean_summaryWith (fix nf : List Char → List Char) (l : List Char) : List Char :=
  cleanSummaryCore (nf (fix l))

/-- `clean_summary` (source lines 112-139): ftfy repair, NFKC normalization,
whitespace collapse, space-before-punctuation removal, sentence
capitalization, contraction restoration, terminal period, trim — in source
order. The surrounding try/except never fires in the model because every step
is total. -/
def clean_summary (l : List Char) : List Char :=
  clean_summaryWith ftfyFixText nfkcEncodeModel l

/-! ## generate_summary (the Summarizer, source lines 141-164) -/

/-- `generate_summary` (source lines 141-164). The pretrained T5 model is the
oracle `modelO`: `Except.ok s` stands for a model invocation returning
`summary[0]["summary_text"] = s`, `Except.error` for any exception raised
during the invocation or while reading its output. The returned Bool records
whether the model was invoked. The argument is typed as text, so the
`str(text)` coercion is the identity, and the only failing step inside the
try block is the model invocation itself, at which point the variable `text`
holds the stripped input. -/
def generate_summary (modelO : List Char → Except Unit (List Char))
    (text : List Char) : List Char × Bool :=
  let t := pyStrip text
  if t = [] then ("No content available to summarize.".data, false)
  else if wordCount t < 10 then (pyCapitalize t, false)
  else
    match modelO ("summarize: ".data ++ t.take 2048) with
    | .ok s => (clean_summary s, true)
    | .error _ => (clean_summary (t.take 300 ++ "...".data), true)

/-! ## fetch_full_article (the Article Fetcher, source lines 80-110) -/

/-- The sentinel value signalling extraction failure. -/
def sentinelL : List Char := "Content not available".data

/-- An HTTP response as the fetcher consumes it: status code, the text nodes
found by `tree.xpath("//p/text()")`, and the `og:image` content found by
`extract_image` (HTML parsing itself is external; the parser output is the
data). -/
structure HttpResponse where
  status : Nat
  paragraphs : List (List Char)
  ogImage : Option (List Char)
deriving DecidableEq

/-- Result of `fetch_full_article`, instrumented with the number of GET
requests issued and the list of `time.sleep` backoff intervals performed. -/
structure FetchResult where
  content : List Char
  image : Option (List Char)
  requests : Nat
  sleeps : List Nat
deriving DecidableEq

/-- `" ".join(paragraphs)`. -/
def joinSpace : List (List Char) → List Char
  | [] => []
  | [p] => p
  | p :: ps => p ++ ' ' :: joinSpace ps

/-- Body extraction on a successful response:
`content = " ".join(paragraphs).strip()`, and the sentinel when it is empty. -/
def extractBody (r : HttpResponse) : List Char :=
  let content := pyStrip (joinSpace r.paragraphs)
  if content = [] then sentinelL else content

/-- `response.raise_for_status()` followed by parsing: a 4xx/5xx status raises,
which the enclosing except converts to the sentinel result; otherwise body and
image are extracted. -/
def finishFetch (r : HttpResponse) (n : Nat) (sl : List Nat) : FetchResult :=
  if 400 ≤ r.status && r.status < 600 then ⟨sentinelL, none, n, sl⟩
  else ⟨extractBody r, r.ogImage, n, sl⟩

/-- `fetch_full_article` (source lines 80-110). `server n` is the response to
the n-th GET of the session (`none` = the GET itself raised, e.g. a network
error, caught by the enclosing except). A 403 first response triggers
`time.sleep(2)` and exactly one retry with the session cookies; any remaining
4xx/5xx status raises and degrades to the sentinel. -/
def fetch_full_article (server : Nat → Option HttpResponse) : FetchResult :=
  match server 0 with
  | none => ⟨sentinelL, none, 1, []⟩
  | some r0 =>
    if r0.status == 403 then
      match server 1 with
      | none => ⟨sentinelL, none, 2, [2]⟩
      | some r1 => finishFetch r1 2 [2]
    else finishFetch r0 1 []

/-! ## fix_guardian_link and filter_headlines (source lines 43-65) -/

/-- `fix_guardian_link` (source lines 43-46): a relative link is prefixed with
the Guardian domain root, with any `#`-fragment stripped
(`link.split("#")[0]`). -/
def fix_guardian_link (link : List Char) : List Char :=
  if !("http".data.isPrefixOf link) then
    "https://www.theguardian.com".data ++ link.takeWhile (fun c => c ≠ '#')
  else link

/-- `filter_headlines` (source lines 50-65): clean each headline, drop those
with at most two whitespace-delimited tokens and those whose lowercase form
contains "video" or "advertisement"; the cleaned survivors are returned. -/
def filter_headlines : List (List Char) → List (List Char)
  | [] => []
  | h :: rest =>
    let cleaned := clean_text h
    if wordCount cleaned ≤ 2 then filter_headlines rest
    else if ("video".data <:+: cleaned.map toLowerAscii)
        ∨ ("advertisement".data <:+: cleaned.map toLowerAscii) then
      filter_headlines rest
    else cleaned :: filter_headlines rest

/-! ## process_news (the Pipeline Orchestrator, source lines 168-231) -/

/-- Sentiment labels of the ResultSet (`§6` contract of the external
classifier). -/
inductive Sentiment | positive | neutral | negative
deriving DecidableEq

/-- A raw scraped (headline, link) pair as returned by the scrape backends. -/
structure ScrapedEntry where
  headline : List Char
  link : List Char
deriving DecidableEq

/-- An Article record as assembled by the orchestrator. -/
structure Article where
  headline : List Char
  url : List Char
  sentiment : Sentiment
  summary : List Char
  image : Option (List Char)
  timestamp : List Char
deriving DecidableEq

/-- The ResultSet: `results = {"positive": [], "neutral": [], "negative": []}`. -/
structure Results where
  positive : List Article
  neutral : List Article
  negative : List Article
deriving DecidableEq

def emptyResults : Results := ⟨[], [], []⟩

/-- `results[sentiment].append(article_data)`. -/
def pushResult (r : Results) : Sentiment × Article → Results
  | (.positive, a) => { r with positive := r.positive ++ [a] }
  | (.neutral, a) => { r with neutral := r.neutral ++ [a] }
  | (.negative, a) => { r with negative := r.negative ++ [a] }

/-- All urls of the ResultSet, across the three buckets. -/
def allUrls (r : Results) : List (List Char) :=
  (r.positive ++ r.neutral ++ r.negative).map (fun a => a.url)

/-- The per-site link fixup of the first loop:
`fix_guardian_link(a["link"]) if site == "guardian" else a["link"]`. -/
def resolveLink (site : List Char) (link : List Char) : List Char :=
  if site = "guardian".data then fix_guardian_link link else link

/-- The first loop of `process_news` (source lines 184-194): clean the
headline, resolve the link, and drop any entry whose resolved link was already
seen in this batch. `seen` is the order-irrelevant set `seen_articles`. -/
def dedupGo (site : List Char) (seen : List (List Char)) :
    List ScrapedEntry → List ScrapedEntry
  | [] => []
  | a :: rest =>
    let cleanedLink := resolveLink site a.link
    if cleanedLink ∈ seen then dedupGo site seen rest
    else ⟨clean_text a.headline, cleanedLink⟩ :: dedupGo site (cleanedLink :: seen) rest

def dedupBatch (site : List Char) (entries : List ScrapedEntry) : List ScrapedEntry :=
  dedupGo site [] entries

/-- The body of the second loop of `process_news` (source lines 196-221) for
one surviving precursor: re-clean the headline, fetch, skip on the sentinel,
classify (external oracle; a missing key defaults to neutral), summarize,
assemble the record. `server url` is the HTTP oracle for that url, `ts` the
`datetime.now` timestamp. Returns `none` when the article is skipped. -/
def processArticle (server : List Char → Nat → Option HttpResponse)
    (classifyO : List Char → Option Sentiment)
    (modelO : List Char → Except Unit (List Char))
    (ts : List Char) (a : ScrapedEntry) : Option (Sentiment × Article) :=
  let headline := clean_text a.headline
  let url := a.link
  let fr := fetch_full_article (server url)
  if fr.content = sentinelL then none
  else
    let sentiment := (classifyO headline).getD .neutral
    let summary := (generate_summary modelO fr.content).1
    some (sentiment, ⟨headline, url, sentiment, summary, fr.image, ts⟩)

/-- The second loop of `process_news`: iterate the surviving precursors,
appending each emitted record to its sentiment bucket. `clock i` is the
timestamp taken at loop iteration `i`. -/
def processArticlesGo (server : List Char → Nat → Option HttpResponse)
    (classifyO : List Char → Option Sentiment)
    (modelO : List Char → Except Unit (List Char))
    (clock : Nat → List Char) (i : Nat) :
    List ScrapedEntry → Results → Results
  | [], r => r
  | a :: rest, r =>
    match processArticle server classifyO modelO (clock i) a with
    | none => processArticlesGo server classifyO modelO clock (i + 1) rest r
    | some sa => processArticlesGo server classifyO modelO clock (i + 1) rest (pushResult r sa)

/-- One site iteration of `process_news` (source lines 172-223): the scrape
backend output `scraped` is deduplicated and the survivors are processed into
the accumulated ResultSet. -/
def processSite (server : List Char → Nat → Option HttpResponse)
    (classifyO : List Char → Option Sentiment)
    (modelO : List Char → Except Unit (List Char))
    (clock : Nat → List Char) (site : List Char)
    (scraped : List ScrapedEntry) (r : Results) : Results :=
  processArticlesGo server classifyO modelO clock 0 (dedupBatch site scraped) r

/-- `process_news` (source lines 168-231): iterate the configured sites in
order, each contributing its batch to the shared ResultSet. `sites` pairs each
site identifier with the output of its scrape backend. -/
def process_news (server : List Char → Nat → Option HttpResponse)
    (classifyO : List Char → Option Sentiment)
    (modelO : List Char → Except Unit (List Char))
    (clock : Nat → List Char) :
    List (List Char × List ScrapedEntry) → Results → Results
  | [], r => r
  | (site, scraped) :: rest, r =>
    process_news server classifyO modelO clock rest
      (processSite server classifyO modelO clock site scraped r)

/-! ## clean_text with its try/except (for the no-raise contract) -/

/-- A Python value passed to `clean_text`: a `str` or any other object. -/
inductive PyVal where
  | str : List Char → PyVal
  | obj : PyVal
deriving DecidableEq

def pyIsStr : PyVal → Bool
  | .str _ => true
  | .obj => false

/-- Step (a)/(b) of `clean_text`: `unicodedata.normalize("NFKC", text)` raises
`TypeError` when the argument is not a str and is total on str; the UTF-8
round trip with `errors="ignore"` and the `re.sub` calls are total on str, so
this first step is the only one of the try block that can raise. -/
def normalizeNFKCStep : PyVal → Except Unit (List Char)
  | .str s => .ok (nfkcEncodeModel s)
  | .obj => .error ()

/-- `clean_text` together with its try/except (source lines 26-39): on an
exception the except branch returns the current value of the variable `text`,
which at the only step that can raise still holds the unmodified argument. -/
def clean_text_py (v : PyVal) : PyVal :=
  match normalizeNFKCStep v with
  | .ok t => .str (cleanTextCore t)
  | .error _ => v

/-! ## Concrete oracle instances for the closed evaluations below -/

/-- A server answering every GET of every url with a 200 response whose body
has one paragraph. -/
def okServer : List Char → Nat → Option HttpResponse :=
  fun _ _ => some ⟨200, ["Body text".data], none⟩

/-- A server on which every GET raises (network failure). -/
def downServer : List Char → Nat → Option HttpResponse := fun _ _ => none

/-- A session answering the first GET with 403 and the retry with 200. -/
def retryServer : Nat → Option HttpResponse :=
  fun n => if n = 0 then some ⟨403, [], none⟩
    else some ⟨200, ["Hello world".data], some "img".data⟩

/-- A classifier response with no final_sentiment key. -/
def noClassify : List Char → Option Sentiment := fun _ => none

/-- A summarization model returning an empty summary text. -/
def okModel : List Char → Except Unit (List Char) := fun _ => .ok []

/-- A summarization model whose every invocation raises. -/
def failModel : List Char → Except Unit (List Char) := fun _ => .error ()

/-- A constant wall clock. -/
def constClock : Nat → List Char := fun _ => "2026-01-01T00:00:00+00:00".data

/-- The links of a precursor list that survive the sentinel check, in
processing order: exactly the urls of the records the second loop appends. -/
def emittedUrls (server : List Char → Nat → Option HttpResponse)
    (l : List ScrapedEntry) : List (List Char) :=
  (l.filter (fun a =>
    !decide ((fetch_full_article (server a.link)).content = sentinelL))).map
    (fun a => a.link)

/-- Whitespace normal form: every whitespace character is a plain space, and
no two whitespace characters are adjacent — the shape produced by the
`\s+`-collapsing substitution. -/
def WsCollapsed (l : List Char) : Prop :=
  (∀ c ∈ l, isPySpace c = true → c = ' ')
  ∧ List.Chain' (fun a b => ¬(isPySpace a = true ∧ isPySpace b = true)) l

/-! # Supporting lemmas -/

theorem toNat_ofNat_valid (n : Nat) (h : n < 55296) : (Char.ofNat n).toNat = n := by
  simp only [Char.ofNat, Nat.isValidChar]
  rw [dif_pos (Or.inl h)]
  rfl

theorem mem_pyStripL {x : Char} {l : List Char} (h : x ∈ pyStripL l) : x ∈ l :=
  (List.dropWhile_sublist isPySpace).subset h

theorem mem_pyStrip {x : Char} {l : List Char} (h : x ∈ pyStrip l) : x ∈ l := by
  unfold pyStrip at h
  rw [List.mem_reverse] at h
  have h2 : x ∈ (pyStripL l).reverse := (List.dropWhile_sublist isPySpace).subset h
  rw [List.mem_reverse] at h2
  exact mem_pyStripL h2

theorem pyStrip_all {P : Char → Bool} {l : List Char} (h : l.all P = true) :
    (pyStrip l).all P = true := by
  rw [List.all_eq_true] at h ⊢
  exact fun x hx => h x (mem_pyStrip hx)

theorem stripNonAsciiGo_all_ascii (b : Bool) (l : List Char) :
    (stripNonAsciiGo b l).all isAsciiChar = true := by
  induction l generalizing b with
  | nil => rfl
  | cons c rest ih =>
    by_cases h : isAsciiChar c = true
    · simp [stripNonAsciiGo, h, ih]
    · rw [Bool.not_eq_true] at h
      have hsp : isAsciiChar ' ' = true := by decide
      cases b <;> simp [stripNonAsciiGo, h, ih, hsp]

theorem collapseWsGo_all {P : Char → Bool} (hsp : P ' ' = true) (b : Bool)
    (l : List Char) (h : l.all P = true) : (collapseWsGo b l).all P = true := by
  induction l generalizing b with
  | nil => rfl
  | cons c rest ih =>
    rw [List.all_cons, Bool.and_eq_true] at h
    by_cases hc : isPySpace c = true
    · cases b <;> simp [collapseWsGo, hc, hsp, ih true h.2]
    · rw [Bool.not_eq_true] at hc
      simp [collapseWsGo, hc, h.1, ih false h.2]

theorem cleanTextCore_all_ascii (l : List Char) :
    (cleanTextCore l).all isAsciiChar = true :=
  pyStrip_all (collapseWsGo_all (by decide) false _ (stripNonAsciiGo_all_ascii false _))

/-! ### Idempotence infrastructure for the whitespace machinery -/

theorem stripNonAsciiGo_eq_self (b : Bool) (l : List Char)
    (h : l.all isAsciiChar = true) : stripNonAsciiGo b l = l := by
  induction l generalizing b with
  | nil => rfl
  | cons c rest ih =>
    rw [List.all_cons, Bool.and_eq_true] at h
    simp [stripNonAsciiGo, h.1, ih false h.2]

theorem collapseWsGo_space_only (b : Bool) (l : List Char) :
    ∀ c ∈ collapseWsGo b l, isPySpace c = true → c = ' ' := by
  induction l generalizing b with
  | nil => intro c hc; simp [collapseWsGo] at hc
  | cons d rest ih =>
    intro c hc hw
    by_cases hd : isPySpace d = true
    · cases b with
      | true =>
        simp only [collapseWsGo, hd, if_true] at hc
        exact ih true c hc hw
      | false =>
        simp only [collapseWsGo, hd, if_true] at hc
        rcases List.mem_cons.mp hc with h1 | h1
        · exact h1
        · exact ih true c h1 hw
    · simp only [collapseWsGo, hd, Bool.false_eq_true, if_false] at hc
      rcases List.mem_cons.mp hc with h1 | h1
      · subst h1; exact absurd hw (by simp [hd])
      · exact ih false c h1 hw

theorem collapseWsGo_true_head (l : List Char) :
    ∀ d, (collapseWsGo true l).head? = some d → isPySpace d = false := by
  induction l with
  | nil => intro d hd; simp [collapseWsGo] at hd
  | cons c rest ih =>
    intro d hd
    by_cases hc : isPySpace c = true
    · simp only [collapseWsGo, hc, if_true] at hd
      exact ih d hd
    · simp only [collapseWsGo, hc, Bool.false_eq_true, if_false, List.head?_cons,
        Option.some.injEq] at hd
      subst hd
      simpa using hc

theorem collapseWsGo_chain (b : Bool) (l : List Char) :
    List.Chain' (fun a c => ¬(isPySpace a = true ∧ isPySpace c = true))
      (collapseWsGo b l) := by
  induction l generalizing b with
  | nil => simp [collapseWsGo]
  | cons c rest ih =>
    by_cases hc : isPySpace c = true
    · cases b with
      | true => simpa [collapseWsGo, hc] using ih true
      | false =>
        simp only [collapseWsGo, hc, if_true, Bool.false_eq_true, if_false]
        rw [List.chain'_cons']
        refine ⟨fun d hd h => ?_, ih true⟩
        have := collapseWsGo_true_head rest d hd
        simp [this] at h
    · simp only [collapseWsGo, hc, Bool.false_eq_true, if_false]
      rw [List.chain'_cons']
      exact ⟨fun d _ h => by simp [hc] at h, ih false⟩

theorem collapseWs_wsCollapsed (l : List Char) : WsCollapsed (collapseWs l) :=
  ⟨collapseWsGo_space_only false l, collapseWsGo_chain false l⟩

theorem collapseWsGo_eq_self (l : List Char) (b : Bool) (h : WsCollapsed l)
    (hb : b = true → ∀ d, l.head? = some d → isPySpace d = false) :
    collapseWsGo b l = l := by
  induction l generalizing b with
  | nil => rfl
  | cons c rest ih =>
    obtain ⟨h1, h2⟩ := h
    rw [List.chain'_cons'] at h2
    by_cases hc : isPySpace c = true
    · cases b with
      | true => exact absurd hc (by simp [hb rfl c rfl])
      | false =>
        have hsp : c = ' ' := h1 c (List.mem_cons_self c rest) hc
        have hrest : collapseWsGo true rest = rest := by
          apply ih true ⟨fun d hd => h1 d (List.mem_cons_of_mem c hd), h2.2⟩
          intro _ d hd
          have hr := h2.1 d hd
          cases hw : isPySpace d
          · rfl
          · exact absurd ⟨hc, hw⟩ hr
        simp only [collapseWsGo, hc, if_true, Bool.false_eq_true, if_false, hrest, hsp]
        rw [if_pos (by decide : isPySpace ' ' = true)]
    · simp only [collapseWsGo, hc, Bool.false_eq_true, if_false, List.cons.injEq, true_and]
      exact ih false ⟨fun d hd => h1 d (List.mem_cons_of_mem c hd), h2.2⟩
        (fun hfalse => by cases hfalse)

theorem dropWhile_eq_self_of_head {p : Char → Bool} {l : List Char}
    (h : ∀ d, l.head? = some d → p d = false) : l.dropWhile p = l := by
  cases l with
  | nil => rfl
  | cons c rest => simp [List.dropWhile_cons, h c rfl]

theorem dropWhile_head_false {p : Char → Bool} {l : List Char} {d : Char}
    (h : (l.dropWhile p).head? = some d) : p d = false := by
  induction l with
  | nil => simp at h
  | cons c rest ih =>
    rw [List.dropWhile_cons] at h
    by_cases hc : p c = true
    · rw [if_pos hc] at h
      exact ih h
    · rw [if_neg hc] at h
      rw [List.head?_cons, Option.some.injEq] at h
      subst h
      simpa using hc

theorem pyStrip_head_not_space {l : List Char} {d : Char}
    (h : (pyStrip l).head? = some d) : isPySpace d = false := by
  unfold pyStrip at h
  -- pyStrip l is a prefix of pyStripL l, whose head fails isPySpace
  obtain ⟨t, ht⟩ : ∃ t, ((pyStripL l).reverse.dropWhile isPySpace).reverse ++ t = pyStripL l := by
    refine ⟨((pyStripL l).reverse.takeWhile isPySpace).reverse, ?_⟩
    rw [← List.reverse_append, List.takeWhile_append_dropWhile, List.reverse_reverse]
  have hd : (pyStripL l).head? = some d := by
    rw [← ht]
    cases hc : ((pyStripL l).reverse.dropWhile isPySpace).reverse with
    | nil => rw [hc] at h; simp at h
    | cons x xs =>
      rw [hc] at h
      rw [List.head?_cons, Option.some.injEq] at h
      subst h
      rfl
  exact dropWhile_head_false hd

theorem pyStrip_getLast_not_space {l : List Char} {d : Char}
    (h : (pyStrip l).getLast? = some d) : isPySpace d = false := by
  unfold pyStrip at h
  rw [List.getLast?_reverse] at h
  exact dropWhile_head_false h

theorem pyStrip_eq_self {l : List Char}
    (h1 : ∀ d, l.head? = some d → isPySpace d = false)
    (h2 : ∀ d, l.getLast? = some d → isPySpace d = false) : pyStrip l = l := by
  unfold pyStrip pyStripL
  rw [dropWhile_eq_self_of_head h1]
  rw [dropWhile_eq_self_of_head (fun d hd => h2 d (by rwa [List.head?_reverse] at hd))]
  exact List.reverse_reverse l

theorem pyStrip_idem (l : List Char) : pyStrip (pyStrip l) = pyStrip l :=
  pyStrip_eq_self (fun _ hd => pyStrip_head_not_space hd)
    (fun _ hd => pyStrip_getLast_not_space hd)

theorem wsCollapsed_suffix {l₁ l₂ : List Char} (h : WsCollapsed l₂) (hs : l₁ <:+ l₂) :
    WsCollapsed l₁ :=
  ⟨fun c hc hw => h.1 c (hs.subset hc) hw, h.2.suffix hs⟩

theorem wsCollapsed_reverse {l : List Char} (h : WsCollapsed l) :
    WsCollapsed l.reverse := by
  refine ⟨fun c hc hw => h.1 c (List.mem_reverse.mp hc) hw, ?_⟩
  rw [List.chain'_reverse]
  exact h.2.imp (fun a c hac h1 => hac ⟨h1.2, h1.1⟩)

theorem wsCollapsed_pyStrip {l : List Char} (h : WsCollapsed l) :
    WsCollapsed (pyStrip l) := by
  unfold pyStrip
  have h1 : WsCollapsed (pyStripL l) := wsCollapsed_suffix h (List.dropWhile_suffix _)
  have h2 : WsCollapsed ((pyStripL l).reverse.dropWhile isPySpace) :=
    wsCollapsed_suffix (wsCollapsed_reverse h1) (List.dropWhile_suffix _)
  exact wsCollapsed_reverse h2

theorem collapseWs_pyStrip_eq_self {l : List Char} (h : WsCollapsed l) :
    collapseWs (pyStrip l) = pyStrip l :=
  collapseWsGo_eq_self _ false (wsCollapsed_pyStrip h) (fun hfalse => by cases hfalse)

/-- The output of `cleanTextCore` is in whitespace normal form. -/
theorem cleanTextCore_wsCollapsed (l : List Char) : WsCollapsed (cleanTextCore l) :=
  wsCollapsed_pyStrip (collapseWs_wsCollapsed _)

/-! ### Character-class facts -/

theorem isAsciiLetter_toNat {c : Char} (h : isAsciiLetter c = true) :
    (65 ≤ c.toNat ∧ c.toNat ≤ 90) ∨ (97 ≤ c.toNat ∧ c.toNat ≤ 122) := by
  simpa [isAsciiLetter, Bool.or_eq_true, Bool.and_eq_true, decide_eq_true_eq] using h

theorem letter_not_space {c : Char} (h : isAsciiLetter c = true) :
    isPySpace c = false := by
  have hn := isAsciiLetter_toNat h
  simp only [isPySpace, Bool.or_eq_false_iff, Bool.and_eq_false_iff,
    decide_eq_false_iff_not, not_le, beq_eq_false_iff_ne, ne_eq]
  omega

theorem letter_not_termPunct {c : Char} (h : isAsciiLetter c = true) :
    isTermPunct c = false := by
  have h1 : ¬ c = '.' := fun he => by subst he; exact absurd h (by decide)
  have h2 : ¬ c = '!' := fun he => by subst he; exact absurd h (by decide)
  have h3 : ¬ c = '?' := fun he => by subst he; exact absurd h (by decide)
  simp [isTermPunct, h1, h2, h3]

theorem termPunct_not_space {c : Char} (h : isTermPunct c = true) :
    isPySpace c = false := by
  simp only [isTermPunct, Bool.or_eq_true, beq_iff_eq] at h
  rcases h with (h | h) | h <;> subst h <;> decide

theorem toUpperAscii_of_lower {c : Char} (h : isAsciiLower c = true) :
    isAsciiLetter (toUpperAscii c) = true ∧ isAsciiLower (toUpperAscii c) = false := by
  have hn : 97 ≤ c.toNat ∧ c.toNat ≤ 122 := by
    simpa [isAsciiLower, Bool.and_eq_true, decide_eq_true_eq] using h
  have ht : (toUpperAscii c).toNat = c.toNat - 32 := by
    unfold toUpperAscii
    rw [if_pos (by simp only [Bool.and_eq_true, decide_eq_true_eq]; omega)]
    exact toNat_ofNat_valid _ (by omega)
  constructor
  · simp only [isAsciiLetter, ht, Bool.or_eq_true, Bool.and_eq_true, decide_eq_true_eq]
    omega
  · simp only [isAsciiLower, ht, Bool.and_eq_false_iff, decide_eq_false_iff_not, not_le]
    omega

theorem upper_not_lowerLetter {c : Char} (h1 : isAsciiLetter c = true)
    (h2 : isAsciiLower c = false) : isLowerLetter c = false := by
  have hn := isAsciiLetter_toNat h1
  have hn2 : ¬ (97 ≤ c.toNat ∧ c.toNat ≤ 122) := by
    intro hcon
    rw [show isAsciiLower c = true by
      simp only [isAsciiLower, Bool.and_eq_true, decide_eq_true_eq]; omega] at h2
    cases h2
  simp only [isLowerLetter, Bool.or_eq_false_iff, Bool.and_eq_false_iff,
    decide_eq_false_iff_not, not_le]
  omega

/-! ### Non-emptiness and boundary preservation through the post-processor -/

theorem collapseWs_ne_nil {l : List Char} (h : l ≠ []) : collapseWs l ≠ [] := by
  cases l with
  | nil => exact absurd rfl h
  | cons c rest =>
    by_cases hc : isPySpace c = true <;> simp [collapseWs, collapseWsGo, hc]

theorem rmSpaceBeforePunct_ne_nil {l : List Char} (h : l ≠ []) :
    rmSpaceBeforePunct l ≠ [] := by
  match l with
  | [] => exact absurd rfl h
  | [c] => simp [rmSpaceBeforePunct]
  | c :: d :: rest =>
    unfold rmSpaceBeforePunct
    split <;> simp

theorem capSentGo_ne_nil (st : CapState) (c : Char) (rest : List Char) :
    capSentGo st (c :: rest) ≠ [] := by
  cases st <;> (unfold capSentGo; repeat' split) <;> simp

theorem capSent_ne_nil {l : List Char} (h : l ≠ []) : capSent l ≠ [] := by
  match l with
  | [] => exact absurd rfl h
  | c :: rest =>
    show (if isAsciiLower c = true then toUpperAscii c :: capSentGo .neutral rest
      else capSentGo .neutral (c :: rest)) ≠ []
    split
    · simp
    · exact capSentGo_ne_nil .neutral c rest

theorem aposSubGo_ne_nil (pw ra : Bool) {l : List Char} (h : l ≠ []) :
    aposSubGo pw ra l ≠ [] := by
  match l with
  | [] => exact absurd rfl h
  | [c] => simp [aposSubGo]
  | c :: d :: rest =>
    unfold aposSubGo
    split <;> simp

theorem terminatePunct_ends {l : List Char} (h : l ≠ []) :
    ∃ m c, terminatePunct l = m ++ [c] ∧ isTermPunct c = true := by
  unfold terminatePunct
  rw [List.getLast?_eq_getLast l h]
  show ∃ m c, (if isTermPunct (l.getLast h) = true then l else l ++ ['.']) = m ++ [c]
    ∧ isTermPunct c = true
  by_cases hp : isTermPunct (l.getLast h) = true
  · rw [if_pos hp]
    exact ⟨l.dropLast, l.getLast h, (List.dropLast_append_getLast h).symm, hp⟩
  · rw [if_neg hp]
    exact ⟨l, '.', rfl, by decide⟩

theorem dropWhile_append_singleton {p : Char → Bool} {m : List Char} {c : Char}
    (hc : p c = false) :
    List.dropWhile p (m ++ [c]) = List.dropWhile p m ++ [c] := by
  induction m with
  | nil => simp [List.dropWhile_cons, hc]
  | cons a m ih =>
    rw [List.cons_append, List.dropWhile_cons, List.dropWhile_cons]
    by_cases ha : p a = true
    · rw [if_pos ha, if_pos ha]
      exact ih
    · rw [if_neg ha, if_neg ha]
      rfl

theorem pyStrip_append_singleton {m : List Char} {c : Char} (hc : isPySpace c = false) :
    pyStrip (m ++ [c]) = List.dropWhile isPySpace m ++ [c] := by
  unfold pyStrip pyStripL
  rw [dropWhile_append_singleton hc, List.reverse_append]
  simp only [List.reverse_cons, List.reverse_nil, List.nil_append, List.singleton_append]
  rw [List.dropWhile_cons, if_neg (by simp [hc])]
  simp

theorem collapseWs_cons_not_space {c : Char} (rest : List Char)
    (hc : isPySpace c = false) :
    collapseWs (c :: rest) = c :: collapseWsGo false rest := by
  simp [collapseWs, collapseWsGo, hc]

theorem rmSp_cons_not_space {c : Char} (rest : List Char) (hc : isPySpace c = false) :
    ∃ t, rmSpaceBeforePunct (c :: rest) = c :: t := by
  cases rest with
  | nil => exact ⟨[], rfl⟩
  | cons d r => exact ⟨rmSpaceBeforePunct (d :: r), by simp [rmSpaceBeforePunct, hc]⟩

theorem capSent_cons_letter {c : Char} (rest : List Char) (hc : isAsciiLetter c = true) :
    ∃ d t, capSent (c :: rest) = d :: t ∧ isAsciiLetter d = true
      ∧ isAsciiLower d = false := by
  show ∃ d t, (if isAsciiLower c = true then toUpperAscii c :: capSentGo .neutral rest
    else capSentGo .neutral (c :: rest)) = d :: t ∧ isAsciiLetter d = true
      ∧ isAsciiLower d = false
  by_cases hl : isAsciiLower c = true
  · rw [if_pos hl]
    obtain ⟨h1, h2⟩ := toUpperAscii_of_lower hl
    exact ⟨toUpperAscii c, _, rfl, h1, h2⟩
  · rw [if_neg hl]
    have hp : isTermPunct c = false := letter_not_termPunct hc
    rw [Bool.not_eq_true] at hl
    exact ⟨c, capSentGo .neutral rest, by simp [capSentGo, hp], hc, hl⟩

theorem aposSub_cons (c : Char) (rest : List Char) :
    ∃ t, aposSub (c :: rest) = c :: t := by
  cases rest with
  | nil => exact ⟨[], rfl⟩
  | cons d r =>
    exact ⟨aposSubGo (isWordChar c) (isAsciiLetter c && (false || !false)) (d :: r),
      by simp [aposSub, aposSubGo]⟩

theorem terminatePunct_cons (c : Char) (rest : List Char) :
    ∃ t, terminatePunct (c :: rest) = c :: t := by
  unfold terminatePunct
  cases h : (c :: rest).getLast? with
  | none => exact ⟨rest, rfl⟩
  | some g =>
    show ∃ t, (if isTermPunct g = true then c :: rest else c :: rest ++ ['.']) = c :: t
    by_cases hp : isTermPunct g = true
    · rw [if_pos hp]
      exact ⟨rest, rfl⟩
    · rw [if_neg hp]
      exact ⟨rest ++ ['.'], rfl⟩

theorem pyStrip_cons_not_space {c : Char} (rest : List Char)
    (hc : isPySpace c = false) : ∃ t, pyStrip (c :: rest) = c :: t := by
  unfold pyStrip pyStripL
  rw [List.dropWhile_cons, if_neg (by simp [hc]), List.reverse_cons,
    dropWhile_append_singleton hc, List.reverse_append]
  exact ⟨(List.dropWhile isPySpace rest.reverse).reverse, by simp⟩

theorem cleanSummaryCore_ends {l : List Char} (h : l ≠ []) :
    ∃ m c, cleanSummaryCore l = m ++ [c] ∧ isTermPunct c = true := by
  show ∃ m c, pyStrip (terminatePunct (aposSub (capSent (rmSpaceBeforePunct
    (collapseWs l))))) = m ++ [c] ∧ isTermPunct c = true
  have h4 : aposSub (capSent (rmSpaceBeforePunct (collapseWs l))) ≠ [] :=
    aposSubGo_ne_nil false false
      (capSent_ne_nil (rmSpaceBeforePunct_ne_nil (collapseWs_ne_nil h)))
  obtain ⟨m, c, hm, hc⟩ := terminatePunct_ends h4
  rw [hm, pyStrip_append_singleton (termPunct_not_space hc)]
  exact ⟨List.dropWhile isPySpace m, c, rfl, hc⟩

theorem cleanSummaryCore_head_letter {c : Char} (rest : List Char)
    (hc : isAsciiLetter c = true) :
    ∃ d t, cleanSummaryCore (c :: rest) = d :: t ∧ isAsciiLetter d = true
      ∧ isAsciiLower d = false := by
  have hns := letter_not_space hc
  show ∃ d t, pyStrip (terminatePunct (aposSub (capSent (rmSpaceBeforePunct
    (collapseWs (c :: rest)))))) = d :: t ∧ isAsciiLetter d = true
      ∧ isAsciiLower d = false
  rw [collapseWs_cons_not_space rest hns]
  obtain ⟨t2, ht2⟩ := rmSp_cons_not_space (collapseWsGo false rest) hns
  rw [ht2]
  obtain ⟨d, t3, ht3, hd1, hd2⟩ := capSent_cons_letter t2 hc
  rw [ht3]
  obtain ⟨t4, ht4⟩ := aposSub_cons d t3
  rw [ht4]
  obtain ⟨t5, ht5⟩ := terminatePunct_cons d t4
  rw [ht5]
  obtain ⟨t6, ht6⟩ := pyStrip_cons_not_space t5 (letter_not_space hd1)
  rw [ht6]
  exact ⟨d, t6, rfl, hd1, hd2⟩

/-! ### The contraction substitution preserves the normal form

The substitution replaces the whitespace character of a match by an
apostrophe and copies every other character, so whitespace characters of the
output sit at positions where the input had the same whitespace character. -/

theorem smtdl_not_space {c : Char} (h : isSmtdl c = true) : isPySpace c = false := by
  simp only [isSmtdl, Bool.or_eq_true, beq_iff_eq] at h
  rcases h with (((h | h) | h) | h) | h <;> subst h <;> decide

theorem apostrophe_not_space : isPySpace apostropheChar = false := by decide

theorem aposSubGo_all_ascii : ∀ (pw ra : Bool) (l : List Char),
    l.all isAsciiChar = true → (aposSubGo pw ra l).all isAsciiChar = true := by
  intro pw ra l
  induction pw, ra, l using aposSubGo.induct with
  | case1 => intro _; rfl
  | case2 => intro h; exact h
  | case3 pw ra c d rest hcond ih =>
    intro h
    simp only [List.all_cons, Bool.and_eq_true] at h
    rw [aposSubGo, if_pos hcond]
    simp only [List.all_cons, Bool.and_eq_true]
    exact ⟨by decide, h.2.1, ih h.2.2⟩
  | case4 pw ra c d rest hcond ih =>
    intro h
    simp only [List.all_cons, Bool.and_eq_true] at h
    rw [aposSubGo, if_neg hcond]
    simp only [List.all_cons, Bool.and_eq_true]
    exact ⟨h.1, ih (by simp only [List.all_cons, Bool.and_eq_true]; exact h.2)⟩

theorem aposSubGo_space_only : ∀ (pw ra : Bool) (l : List Char),
    (∀ c ∈ l, isPySpace c = true → c = ' ') →
    ∀ c ∈ aposSubGo pw ra l, isPySpace c = true → c = ' ' := by
  intro pw ra l
  induction pw, ra, l using aposSubGo.induct with
  | case1 => intro _ c hc; simp [aposSubGo] at hc
  | case2 => intro h c hc; exact h c hc
  | case3 pw ra c d rest hcond ih =>
    intro h x hx hws
    rw [aposSubGo, if_pos hcond] at hx
    rcases List.mem_cons.mp hx with h1 | h1
    · subst h1; exact absurd hws (by simp [apostrophe_not_space])
    rcases List.mem_cons.mp h1 with h2 | h2
    · subst h2; exact h x (List.mem_cons_of_mem _ (List.mem_cons_self _ _)) hws
    · exact ih (fun y hy => h y (List.mem_cons_of_mem _ (List.mem_cons_of_mem _ hy)))
        x h2 hws
  | case4 pw ra c d rest hcond ih =>
    intro h x hx hws
    rw [aposSubGo, if_neg hcond] at hx
    rcases List.mem_cons.mp hx with h1 | h1
    · subst h1; exact h x (List.mem_cons_self _ _) hws
    · exact ih (fun y hy => h y (List.mem_cons_of_mem _ hy)) x h1 hws

theorem aposSubGo_head_cases (pw ra : Bool) (d : Char) (rest : List Char) :
    (aposSubGo pw ra (d :: rest)).head? = some d
    ∨ (aposSubGo pw ra (d :: rest)).head? = some apostropheChar := by
  cases rest with
  | nil => exact Or.inl rfl
  | cons e r =>
    rw [aposSubGo]
    split
    · exact Or.inr rfl
    · exact Or.inl rfl

theorem aposSubGo_chain : ∀ (pw ra : Bool) (l : List Char),
    List.Chain' (fun a b => ¬(isPySpace a = true ∧ isPySpace b = true)) l →
    List.Chain' (fun a b => ¬(isPySpace a = true ∧ isPySpace b = true))
      (aposSubGo pw ra l) := by
  intro pw ra l
  induction pw, ra, l using aposSubGo.induct with
  | case1 => intro _; simp [aposSubGo]
  | case2 => intro _; simp [aposSubGo]
  | case3 pw ra c d rest hcond ih =>
    intro h
    rw [List.chain'_cons'] at h
    rw [List.chain'_cons'] at h
    have hd : isSmtdl d = true := by
      simp only [Bool.and_eq_true] at hcond
      exact hcond.1.2
    have hdns : isPySpace d = false := smtdl_not_space hd
    rw [aposSubGo, if_pos hcond]
    rw [List.chain'_cons']
    refine ⟨fun y hy hcon => by simp [apostrophe_not_space] at hcon, ?_⟩
    rw [List.chain'_cons']
    exact ⟨fun y hy hcon => by simp [hdns] at hcon, ih h.2.2⟩
  | case4 pw ra c d rest hcond ih =>
    intro h
    rw [List.chain'_cons'] at h
    rw [aposSubGo, if_neg hcond]
    rw [List.chain'_cons']
    refine ⟨fun y hy hcon => ?_, ih h.2⟩
    rcases aposSubGo_head_cases (isWordChar c)
        (isAsciiLetter c && (ra || !pw)) d rest with hh | hh
    · rw [hh, Option.mem_def, Option.some.injEq] at hy
      subst hy
      exact h.1 d rfl hcon
    · rw [hh, Option.mem_def, Option.some.injEq] at hy
      subst hy
      simp [apostrophe_not_space] at hcon

theorem getLast?_cons_of_ne_nil {a : Char} {l : List Char} (h : l ≠ []) :
    (a :: l).getLast? = l.getLast? := by
  cases l with
  | nil => exact absurd rfl h
  | cons b t => exact List.getLast?_cons_cons

theorem aposSubGo_getLast_ws : ∀ (pw ra : Bool) (l : List Char) (d : Char),
    (aposSubGo pw ra l).getLast? = some d → isPySpace d = true →
    l.getLast? = some d := by
  intro pw ra l
  induction pw, ra, l using aposSubGo.induct with
  | case1 => intro d hd _; simp [aposSubGo] at hd
  | case2 => intro d hd _; exact hd
  | case3 pw ra c e rest hcond ih =>
    intro d hd hws
    have he : isSmtdl e = true := by
      simp only [Bool.and_eq_true] at hcond
      exact hcond.1.2
    rw [aposSubGo, if_pos hcond] at hd
    cases hrest : rest with
    | nil =>
      subst hrest
      rw [show aposSubGo true false [] = [] from rfl] at hd
      rw [List.getLast?_cons_cons, show ([e].getLast? : Option Char) = some e from rfl,
        Option.some.injEq] at hd
      subst hd
      exact absurd hws (by simp [smtdl_not_space he])
    | cons r0 rs =>
      subst hrest
      have hne : aposSubGo true false (r0 :: rs) ≠ [] :=
        aposSubGo_ne_nil true false (by simp)
      rw [List.getLast?_cons_cons, getLast?_cons_of_ne_nil hne] at hd
      rw [List.getLast?_cons_cons, List.getLast?_cons_cons]
      exact ih d hd hws
  | case4 pw ra c e rest hcond ih =>
    intro d hd hws
    rw [aposSubGo, if_neg hcond] at hd
    have hne : aposSubGo (isWordChar c) (isAsciiLetter c && (ra || !pw))
        (e :: rest) ≠ [] := aposSubGo_ne_nil _ _ (by simp)
    rw [getLast?_cons_of_ne_nil hne] at hd
    rw [List.getLast?_cons_cons]
    exact ih d hd hws

/-- Key equation for idempotence: on a string in the normalizer's output
normal form (all-ASCII, whitespace-collapsed, trimmed), re-running the whole
normalizer core equals running the contraction substitution alone — the
other steps are the identity both before and after it. -/
theorem cleanTextCore_eq_aposSub {y : List Char}
    (ha : y.all isAsciiChar = true) (hw : WsCollapsed y)
    (hh : ∀ d, y.head? = some d → isPySpace d = false)
    (hl : ∀ d, y.getLast? = some d → isPySpace d = false) :
    cleanTextCore y = aposSub y := by
  unfold cleanTextCore
  rw [show stripNonAscii (aposSub y) = aposSub y from
    stripNonAsciiGo_eq_self false _ (aposSubGo_all_ascii false false y ha)]
  rw [show collapseWs (aposSub y) = aposSub y from
    collapseWsGo_eq_self _ false
      ⟨aposSubGo_space_only false false y hw.1, aposSubGo_chain false false y hw.2⟩
      (fun hf => by cases hf)]
  apply pyStrip_eq_self
  · intro d hd
    cases y with
    | nil => simp [aposSub, aposSubGo] at hd
    | cons c t =>
      obtain ⟨t2, ht2⟩ := aposSub_cons c t
      rw [ht2, List.head?_cons, Option.some.injEq] at hd
      rw [← hd]
      exact hh c rfl
  · intro d hd
    cases hws : isPySpace d
    · rfl
    · have := hl d (aposSubGo_getLast_ws false false y d hd hws)
      simp [hws] at this


/-! ### Deduplication infrastructure -/

theorem dedupGo_link_not_seen (site : List Char) (entries : List ScrapedEntry) :
    ∀ (seen : List (List Char)), ∀ e ∈ dedupGo site seen entries, e.link ∉ seen := by
  induction entries with
  | nil => intro seen e he; simp [dedupGo] at he
  | cons a rest ih =>
    intro seen e he
    by_cases hm : resolveLink site a.link ∈ seen
    · rw [dedupGo, if_pos hm] at he
      exact ih seen e he
    · rw [dedupGo, if_neg hm] at he
      rcases List.mem_cons.mp he with h1 | h1
      · subst h1; exact hm
      · exact fun hs => ih _ e h1 (List.mem_cons_of_mem _ hs)

theorem dedupGo_links_nodup (site : List Char) (entries : List ScrapedEntry) :
    ∀ seen, ((dedupGo site seen entries).map (fun e => e.link)).Nodup := by
  induction entries with
  | nil => intro seen; simp [dedupGo]
  | cons a rest ih =>
    intro seen
    by_cases hm : resolveLink site a.link ∈ seen
    · rw [dedupGo, if_pos hm]
      exact ih seen
    · rw [dedupGo, if_neg hm]
      rw [List.map_cons, List.nodup_cons]
      refine ⟨fun hmem => ?_, ih _⟩
      obtain ⟨e, he, hl⟩ := List.mem_map.mp hmem
      exact dedupGo_link_not_seen site rest _ e he (hl ▸ List.mem_cons_self _ _)

theorem dedupGo_mem_link (site : List Char) (entries : List ScrapedEntry)
    (u : List Char) :
    ∀ seen, (∃ a ∈ entries, resolveLink site a.link = u) → u ∉ seen →
      u ∈ (dedupGo site seen entries).map (fun e => e.link) := by
  induction entries with
  | nil => intro seen hex _; simp at hex
  | cons a rest ih =>
    intro seen hex hu
    obtain ⟨b, hb, hbu⟩ := hex
    by_cases hm : resolveLink site a.link ∈ seen
    · rw [dedupGo, if_pos hm]
      rcases List.mem_cons.mp hb with h1 | h1
      · subst h1; exact absurd (hbu ▸ hm) hu
      · exact ih seen ⟨b, h1, hbu⟩ hu
    · rw [dedupGo, if_neg hm]
      by_cases hau : resolveLink site a.link = u
      · rw [List.map_cons]
        exact hau ▸ List.mem_cons_self _ _
      · rcases List.mem_cons.mp hb with h1 | h1
        · exact absurd (h1 ▸ hbu) hau
        · rw [List.map_cons]
          refine List.mem_cons_of_mem _ (ih _ ⟨b, h1, hbu⟩ ?_)
          intro hc
          rcases List.mem_cons.mp hc with h2 | h2
          · exact hau h2.symm
          · exact hu h2

/-! ### Emission infrastructure -/

theorem emittedUrls_cons_skip {server a rest}
    (h : (fetch_full_article (server a.link)).content = sentinelL) :
    emittedUrls server (a :: rest) = emittedUrls server rest := by
  simp [emittedUrls, List.filter_cons, h]

theorem emittedUrls_cons_keep {server a rest}
    (h : ¬ (fetch_full_article (server a.link)).content = sentinelL) :
    emittedUrls server (a :: rest) = a.link :: emittedUrls server rest := by
  simp [emittedUrls, List.filter_cons, h]

theorem append_singleton_perm {α : Type} (x y : List α) (u : α) :
    ((x ++ [u]) ++ y).Perm ((x ++ y) ++ [u]) := by
  rw [List.append_assoc, List.append_assoc]
  exact List.Perm.append_left x List.perm_append_comm

theorem count_eq_one_of_nodup_mem {α : Type} [BEq α] [LawfulBEq α] {l : List α}
    {u : α} (d : l.Nodup) (h : u ∈ l) : l.count u = 1 := by
  induction l with
  | nil => simp at h
  | cons a rest ih =>
    rw [List.nodup_cons] at d
    rw [List.count_cons]
    rcases List.mem_cons.mp h with h1 | h1
    · subst h1
      rw [List.count_eq_zero_of_not_mem d.1]
      simp
    · rw [ih d.2 h1]
      have hne : ¬ a = u := fun he => d.1 (by rw [he]; exact h1)
      simp [hne]

theorem allUrls_pushResult (r : Results) (sa : Sentiment × Article) :
    (allUrls (pushResult r sa)).Perm (allUrls r ++ [sa.2.url]) := by
  obtain ⟨s, a⟩ := sa
  cases s with
  | positive =>
    simp only [allUrls, pushResult, List.map_append, List.map_cons, List.map_nil]
    exact ((append_singleton_perm _ _ _).append_right _).trans
      (append_singleton_perm _ _ _)
  | neutral =>
    simp only [allUrls, pushResult, List.map_append, List.map_cons, List.map_nil]
    rw [← List.append_assoc]
    exact append_singleton_perm _ _ _
  | negative =>
    simp only [allUrls, pushResult, List.map_append, List.map_cons, List.map_nil]
    rw [← List.append_assoc]

theorem processArticlesGo_perm (server : List Char → Nat → Option HttpResponse)
    (classifyO : List Char → Option Sentiment)
    (modelO : List Char → Except Unit (List Char)) (clock : Nat → List Char)
    (l : List ScrapedEntry) :
    ∀ (i : Nat) (r : Results),
      (allUrls (processArticlesGo server classifyO modelO clock i l r)).Perm
        (allUrls r ++ emittedUrls server l) := by
  induction l with
  | nil => intro i r; simp [processArticlesGo, emittedUrls]
  | cons a rest ih =>
    intro i r
    by_cases h : (fetch_full_article (server a.link)).content = sentinelL
    · have hnone : processArticle server classifyO modelO (clock i) a = none := by
        simp [processArticle, h]
      rw [processArticlesGo, hnone, emittedUrls_cons_skip h]
      exact ih (i + 1) r
    · have hsome : processArticle server classifyO modelO (clock i) a =
          some ((classifyO (clean_text a.headline)).getD .neutral,
            ⟨clean_text a.headline, a.link,
             (classifyO (clean_text a.headline)).getD .neutral,
             (generate_summary modelO (fetch_full_article (server a.link)).content).1,
             (fetch_full_article (server a.link)).image, clock i⟩) := by
        simp [processArticle, h]
      rw [processArticlesGo, hsome, emittedUrls_cons_keep h]
      refine (ih (i + 1) _).trans ?_
      refine ((allUrls_pushResult r _).append_right _).trans ?_
      rw [List.append_assoc, List.singleton_append]

theorem emittedUrls_sublist (server : List Char → Nat → Option HttpResponse)
    (l : List ScrapedEntry) :
    List.Sublist (emittedUrls server l) (l.map (fun a => a.link)) :=
  List.Sublist.map _ (List.filter_sublist l)

/-! # Claim theorems -/

/-- C5: per-batch deduplication by resolved URL is exact. First conjunct: for
every oracle instantiation, the urls of all records a single site batch
appends to the empty ResultSet are pairwise distinct. Second conjunct: every
resolved URL occurring in the batch survives exactly once in the dedup
output. Third conjunct: the invariant is per-batch only — a concrete two-site
run in which both sites scrape the same link yields a ResultSet with a
duplicated url. -/
theorem C5_dedup_exact_per_batch :
    (∀ server classifyO modelO clock site scraped,
      (allUrls (processSite server classifyO modelO clock site scraped
        emptyResults)).Nodup)
    ∧ (∀ site scraped u, (∃ a ∈ scraped, resolveLink site a.link = u) →
      ((dedupBatch site scraped).map (fun e => e.link)).count u = 1)
    ∧ ¬ (allUrls (process_news okServer noClassify okModel constClock
        [("siteA".data, [⟨"Some headline words".data, "u".data⟩]),
         ("siteB".data, [⟨"Some headline words".data, "u".data⟩])]
        emptyResults)).Nodup := by
  refine ⟨?_, ?_, by decide⟩
  · intro server classifyO modelO clock site scraped
    unfold processSite
    rw [(processArticlesGo_perm server classifyO modelO clock
      (dedupBatch site scraped) 0 emptyResults).nodup_iff]
    show ([] ++ emittedUrls server (dedupBatch site scraped)).Nodup
    rw [List.nil_append]
    exact (emittedUrls_sublist server _).nodup (dedupGo_links_nodup site scraped [])
  · intro site scraped u hex
    exact count_eq_one_of_nodup_mem (dedupGo_links_nodup site scraped [])
      (dedupGo_mem_link site scraped u [] hex (List.not_mem_nil u))

/-- Witness for C5: two Guardian entries resolving to the same absolute URL
(differing fragments), of which exactly one survives. -/
theorem C5_dedup_exact_per_batch_witness :
    ((dedupBatch "guardian".data
        [⟨"Alpha beta gamma".data, "/a#comments".data⟩,
         ⟨"Delta five six".data, "/a#related".data⟩]).map (fun e => e.link)).count
      "https://www.theguardian.com/a".data = 1 :=
  C5_dedup_exact_per_batch.2.1 "guardian".data _ _
    ⟨⟨"Alpha beta gamma".data, "/a#comments".data⟩, by decide, by decide⟩

/-- C1 (code_bug evidence): `filter_headlines` does discard a two-token
headline and keep a clean three-token one, but the orchestrator never invokes
it: a batch containing the two-token headline "Hi there" passes the first
(dedup) loop untouched, the entry reaches the fetch step, and a record for it
is appended to the ResultSet. -/
theorem C1_filter_defined_but_not_applied :
    filter_headlines ["Hi there".data] = []
    ∧ filter_headlines ["Markets rally today".data] = ["Markets rally today".data]
    ∧ wordCount (clean_text "Hi there".data) = 2
    ∧ dedupBatch "bbc".data [⟨"Hi there".data, "u".data⟩]
        = [⟨"Hi there".data, "u".data⟩]
    ∧ (processSite okServer noClassify okModel constClock "bbc".data
        [⟨"Hi there".data, "u".data⟩] emptyResults).neutral =
      [⟨"Hi there".data, "u".data, .neutral, "Body text".data, none, constClock 0⟩] := by
  decide

/-- C7 counterexample: the sentence-capitalization pattern uppercases only
ASCII `[a-z]`. For the alphabetic lowercase input character é the output of
the Summary Post-Processor still starts with a lowercase letter. -/
theorem C7_nonascii_lowercase_start_retained :
    isAlphaChar 'é' = true
    ∧ isLowerLetter 'é' = true
    ∧ clean_summary ['é'] = ['é', '.'] := by
  decide

/-- C7 amended: for every external repair function and every normalization
function, whenever the repaired-and-normalized text is non-empty the Summary
Post-Processor output ends with `.`, `!` or `?`; and whenever the
repaired-and-normalized text starts with an *ASCII* alphabetic character, the
output does not start with a lowercase letter. On the raw input neither
guarantee survives the external steps: the capitalization pattern matches
only ASCII `[a-z]` (so a lowercase é stays lowercase, see the
counterexample), and real NFKC can compose an initial ASCII letter with a
following combining mark into a non-ASCII lowercase letter before the
pattern runs. -/
theorem C7_terminal_punct_and_ascii_capitalization :
    (∀ (fix nf : List Char → List Char) (l : List Char), nf (fix l) ≠ [] →
      ∃ m p, clean_summaryWith fix nf l = m ++ [p] ∧ isTermPunct p = true)
    ∧ ∀ (fix nf : List Char → List Char) (l : List Char) (c : Char) (t : List Char),
      nf (fix l) = c :: t → isAsciiLetter c = true →
      ∃ d t2, clean_summaryWith fix nf l = d :: t2 ∧ isLowerLetter d = false := by
  constructor
  · intro fix nf l h
    exact cleanSummaryCore_ends h
  · intro fix nf l c t hct hc
    unfold clean_summaryWith
    rw [hct]
    obtain ⟨d, t2, hdt, h1, h2⟩ := cleanSummaryCore_head_letter t hc
    exact ⟨d, t2, hdt, upper_not_lowerLetter h1 h2⟩

/-- Witness for C7: the theorem applied at the input "word one" with the
identity repair and normalization steps, which are exact on it. -/
theorem C7_terminal_punct_and_ascii_capitalization_witness :
    ("word one".data ≠ [] ∧ id (id "word one".data) = 'w' :: "ord one".data
      ∧ isAsciiLetter 'w' = true)
    ∧ (∃ m p, clean_summaryWith id id "word one".data = m ++ [p] ∧ isTermPunct p = true)
    ∧ ∃ d t, clean_summaryWith id id "word one".data = d :: t ∧ isLowerLetter d = false :=
  ⟨⟨by decide, by decide, by decide⟩,
   C7_terminal_punct_and_ascii_capitalization.1 id id "word one".data (by decide),
   C7_terminal_punct_and_ascii_capitalization.2 id id "word one".data 'w'
     "ord one".data (by decide) (by decide)⟩

/-- C2 counterexample: the normalizer is not idempotent. On "a s s" the
contraction substitution rewrites the first "a s" pair, and on the output
"a's s" it fires again across the apostrophe boundary, giving "a's's". -/
theorem C2_not_idempotent :
    clean_text (clean_text "a s s".data) ≠ clean_text "a s s".data
    ∧ clean_text "a s s".data = ['a', apostropheChar, 's', ' ', 's']
    ∧ clean_text (clean_text "a s s".data)
        = ['a', apostropheChar, 's', apostropheChar, 's'] := by
  decide

/-- C2 amended: the normalizer is idempotent *exactly* on the inputs whose
normalized output is left unchanged by the contraction-restoring
substitution. On the output normal form (all-ASCII, whitespace-collapsed,
trimmed) every other step of a second run is the identity, so the second run
equals the contraction substitution alone — giving both directions of the
equivalence. The first conjunct is stated for an arbitrary normalization
step of the first run and an arbitrary step of the second run that fixes the
first run's output (real NFKC does: that output is all-ASCII and ASCII is
NFKC-invariant); the second conjunct instantiates it to `clean_text`. -/
theorem C2_idempotent_iff_aposSub_fixed :
    (∀ (nf nf2 : List Char → List Char) (l : List Char),
      nf2 (cleanTextWith nf l) = cleanTextWith nf l →
      (cleanTextWith nf2 (cleanTextWith nf l) = cleanTextWith nf l
        ↔ aposSub (cleanTextWith nf l) = cleanTextWith nf l))
    ∧ ∀ l : List Char,
      (clean_text (clean_text l) = clean_text l
        ↔ aposSub (clean_text l) = clean_text l) := by
  have hkey : ∀ (nf : List Char → List Char) (l : List Char),
      cleanTextCore (cleanTextWith nf l) = aposSub (cleanTextWith nf l) :=
    fun nf l =>
      cleanTextCore_eq_aposSub (cleanTextCore_all_ascii _) (cleanTextCore_wsCollapsed _)
        (fun _ hd => pyStrip_head_not_space hd)
        (fun _ hd => pyStrip_getLast_not_space hd)
  have hmain : ∀ (nf nf2 : List Char → List Char) (l : List Char),
      nf2 (cleanTextWith nf l) = cleanTextWith nf l →
      (cleanTextWith nf2 (cleanTextWith nf l) = cleanTextWith nf l
        ↔ aposSub (cleanTextWith nf l) = cleanTextWith nf l) := by
    intro nf nf2 l h2
    have heq : cleanTextWith nf2 (cleanTextWith nf l)
        = aposSub (cleanTextWith nf l) := by
      show cleanTextCore (nf2 (cleanTextWith nf l)) = aposSub (cleanTextWith nf l)
      rw [h2]
      exact hkey nf l
    rw [heq]
  exact ⟨hmain, fun l => hmain nfkcEncodeModel nfkcEncodeModel l rfl⟩

/-- Witness for C2: the theorem applied at "hello world", on whose normalized
form the contraction substitution does not fire. -/
theorem C2_idempotent_iff_aposSub_fixed_witness :
    id (cleanTextWith id "hello world".data) = cleanTextWith id "hello world".data
    ∧ aposSub (clean_text "hello world".data) = clean_text "hello world".data
    ∧ cleanTextWith id (cleanTextWith id "hello world".data)
        = cleanTextWith id "hello world".data
    ∧ clean_text (clean_text "hello world".data) = clean_text "hello world".data :=
  ⟨rfl, by decide,
   (C2_idempotent_iff_aposSub_fixed.1 id id "hello world".data rfl).mpr (by decide),
   (C2_idempotent_iff_aposSub_fixed.2 "hello world".data).mpr (by decide)⟩

/-- C3 counterexample: for the three-word input "Markets Fell Today" the
summarizer returns `str.capitalize()` of the text, which lowercases every
character after the first — the output differs from the trimmed input even
though its first letter is already capital. -/
theorem C3_capitalize_lowercases_rest :
    generate_summary okModel "Markets Fell Today".data
      = ("Markets fell today".data, false)
    ∧ "Markets fell today".data ≠ "Markets Fell Today".data := by
  decide

/-- C3 amended: for every input whose stripped form is non-empty and has
fewer than 10 whitespace-delimited words, `generate_summary` returns Python
`str.capitalize()` of the stripped text (first character uppercased, all
following characters lowercased) and never invokes the summarization model,
whatever that model is. -/
theorem C3_short_input_capitalized (modelO : List Char → Except Unit (List Char))
    (t : List Char) (h1 : pyStrip t ≠ []) (h2 : wordCount (pyStrip t) < 10) :
    generate_summary modelO t = (pyCapitalize (pyStrip t), false) := by
  simp only [generate_summary, if_neg h1, if_pos h2]

/-- Witness for C3: the theorem applied at "hello there world". -/
theorem C3_short_input_capitalized_witness :
    pyStrip "hello there world".data ≠ []
    ∧ wordCount (pyStrip "hello there world".data) < 10
    ∧ generate_summary okModel "hello there world".data
        = (pyCapitalize (pyStrip "hello there world".data), false) :=
  ⟨by decide, by decide,
    C3_short_input_capitalized okModel "hello there world".data (by decide) (by decide)⟩

/-- C4 counterexample: the control character U+0001 is ASCII but not
printable, and `clean_text` passes it through unchanged. -/
theorem C4_nonprintable_retained :
    clean_text ['a', Char.ofNat 1, 'b'] = ['a', Char.ofNat 1, 'b']
    ∧ (clean_text ['a', Char.ofNat 1, 'b']).all isPrintableAscii = false := by
  decide

/-- C4 amended: every character of the normalizer output is ASCII (code point
at most 127) — for the modelled `clean_text` and for an arbitrary
Unicode-normalization step, since the non-ASCII removal comes after it. -/
theorem C4_output_all_ascii :
    (∀ nf l, (cleanTextWith nf l).all isAsciiChar = true)
    ∧ ∀ l, (clean_text l).all isAsciiChar = true :=
  ⟨fun _ _ => cleanTextCore_all_ascii _, fun _ => cleanTextCore_all_ascii _⟩

/-- C6: when the first GET returns status 403, the fetcher sleeps exactly the
fixed 2-unit backoff, issues exactly one retry (two requests in total, never
more), and when the retried response is a 200 success it returns that
response's extracted body and image. -/
theorem C6_403_retries_exactly_once (server : Nat → Option HttpResponse)
    (r0 : HttpResponse) (h0 : server 0 = some r0) (h403 : r0.status = 403) :
    (fetch_full_article server).requests = 2
    ∧ (fetch_full_article server).sleeps = [2]
    ∧ ∀ r1, server 1 = some r1 → r1.status = 200 →
        (fetch_full_article server).content = extractBody r1
        ∧ (fetch_full_article server).image = r1.ogImage := by
  unfold fetch_full_article
  rw [h0]
  simp only [h403, beq_self_eq_true, if_true]
  cases hs : server 1 with
  | none =>
    exact ⟨rfl, rfl, fun r1 h1 _ => absurd h1 (by simp)⟩
  | some r1 =>
    refine ⟨?_, ?_, fun r1' h1 h200 => ?_⟩
    · show (finishFetch r1 2 [2]).requests = 2
      unfold finishFetch
      split <;> rfl
    · show (finishFetch r1 2 [2]).sleeps = [2]
      unfold finishFetch
      split <;> rfl
    · injection h1 with h1'
      subst h1'
      simp [finishFetch, h200]

/-- Witness for C6: the theorem applied to a session whose first response is
403 and whose retry is a 200 with body and image. -/
theorem C6_403_retries_exactly_once_witness :
    (fetch_full_article retryServer).requests = 2
    ∧ (fetch_full_article retryServer).sleeps = [2]
    ∧ (fetch_full_article retryServer).content
        = extractBody ⟨200, ["Hello world".data], some "img".data⟩
    ∧ (fetch_full_article retryServer).image = some "img".data := by
  have h := C6_403_retries_exactly_once retryServer ⟨403, [], none⟩ rfl rfl
  have h2 := h.2.2 ⟨200, ["Hello world".data], some "img".data⟩ rfl rfl
  exact ⟨h.1, h.2.1, h2.1, by rw [h2.2]⟩

/-- C8: the normalizer never raises — `clean_text_py` is total — and on the
only input class where an internal step fails (a non-str argument, failing at
the first step) the except branch returns the original input completely
unchanged; on every str the normal result is produced. -/
theorem C8_clean_text_never_raises :
    (∀ v, pyIsStr v = false → clean_text_py v = v)
    ∧ ∀ l, clean_text_py (.str l) = .str (clean_text l) := by
  constructor
  · intro v h
    cases v with
    | str s => simp [pyIsStr] at h
    | obj => rfl
  · intro l
    rfl

/-- Witness for C8: the theorem applied to a non-str input. -/
theorem C8_clean_text_never_raises_witness :
    pyIsStr PyVal.obj = false ∧ clean_text_py PyVal.obj = PyVal.obj :=
  ⟨rfl, C8_clean_text_never_raises.1 PyVal.obj rfl⟩

/-- C9 counterexample: with a failing model, the fallback post-processes the
first 300 characters of the *stripped* content, not of the original content:
for an input with a leading space the two differ (the original-based text
keeps its leading space, so the sentence-capitalization pattern does not fire
at position 0). -/
theorem C9_fallback_not_from_original :
    (generate_summary failModel " a b c e f g h i j k".data).1
      = clean_summary ((pyStrip " a b c e f g h i j k".data).take 300 ++ "...".data)
    ∧ (generate_summary failModel " a b c e f g h i j k".data).2 = true
    ∧ (generate_summary failModel " a b c e f g h i j k".data).1
      ≠ clean_summary ((" a b c e f g h i j k".data).take 300 ++ "...".data) := by
  decide

/-- C9 amended: when the stripped content is non-empty, has at least 10 words
and the model invocation raises, `generate_summary` does not propagate the
exception but returns the Summary Post-Processor applied to the first 300
characters of the *stripped* content followed by an ellipsis. -/
theorem C9_summarize_failure_fallback (modelO : List Char → Except Unit (List Char))
    (t : List Char) (h1 : pyStrip t ≠ []) (h2 : ¬ wordCount (pyStrip t) < 10)
    (h3 : modelO ("summarize: ".data ++ (pyStrip t).take 2048) = .error ()) :
    generate_summary modelO t
      = (clean_summary ((pyStrip t).take 300 ++ "...".data), true) := by
  simp only [generate_summary, if_neg h1, if_neg h2, h3]

/-- Witness for C9: the theorem applied to a 10-word content and the
always-raising model. -/
theorem C9_summarize_failure_fallback_witness :
    pyStrip "a b c e f g h i j k".data ≠ []
    ∧ ¬ wordCount (pyStrip "a b c e f g h i j k".data) < 10
    ∧ generate_summary failModel "a b c e f g h i j k".data
        = (clean_summary ((pyStrip "a b c e f g h i j k".data).take 300 ++ "...".data), true) :=
  ⟨by decide, by decide,
    C9_summarize_failure_fallback failModel "a b c e f g h i j k".data
      (by decide) (by decide) rfl⟩

/-- C10: the orchestrator's skip decision is exactly string equality of the
fetched content with the sentinel: an article yields no record iff the fetch
result equals "Content not available" (first conjunct, an iff), a skipped
article contributes nothing to any sentiment bucket (second conjunct), and
the sentinel is produced by a raising GET, by empty paragraph extraction, and
by a successfully fetched 200 page whose body text happens to equal the
sentinel (last three conjuncts). -/
theorem C10_sentinel_equality_skip :
    (∀ server classifyO modelO ts a,
      processArticle server classifyO modelO ts a = none
        ↔ (fetch_full_article (server a.link)).content = sentinelL)
    ∧ (∀ server classifyO modelO clock i a rest r,
      (fetch_full_article (server a.link)).content = sentinelL →
        processArticlesGo server classifyO modelO clock i (a :: rest) r
          = processArticlesGo server classifyO modelO clock (i + 1) rest r)
    ∧ (∀ server, server 0 = none → fetch_full_article server = ⟨sentinelL, none, 1, []⟩)
    ∧ (∀ server r0, server 0 = some r0 → r0.status = 200 → r0.paragraphs = [] →
        (fetch_full_article server).content = sentinelL)
    ∧ (∀ server r0, server 0 = some r0 → r0.status = 200 → r0.paragraphs = [sentinelL] →
        (fetch_full_article server).content = sentinelL) := by
  have hiff : ∀ server classifyO modelO ts (a : ScrapedEntry),
      processArticle server classifyO modelO ts a = none
        ↔ (fetch_full_article (server a.link)).content = sentinelL := by
    intro server classifyO modelO ts a
    by_cases h : (fetch_full_article (server a.link)).content = sentinelL
    · simp [processArticle, h]
    · simp [processArticle, h]
  refine ⟨hiff, ?_, ?_, ?_, ?_⟩
  · intro server classifyO modelO clock i a rest r h
    have hnone := (hiff server classifyO modelO (clock i) a).mpr h
    simp [processArticlesGo, hnone]
  · intro server h
    unfold fetch_full_article
    rw [h]
  · intro server r0 h0 h200 hpar
    have hc : extractBody r0 = sentinelL := by
      unfold extractBody
      rw [hpar]
      decide
    simp [fetch_full_article, h0, finishFetch, h200, hc]
  · intro server r0 h0 h200 hpar
    have hc : extractBody r0 = sentinelL := by
      unfold extractBody
      rw [hpar]
      decide
    simp [fetch_full_article, h0, finishFetch, h200, hc]

/-- Witness for C10: the theorem applied to a concrete skipped article and to
concrete sentinel-producing responses. -/
theorem C10_sentinel_equality_skip_witness :
    processArticle downServer noClassify okModel "ts".data ⟨"Some headline".data, "u".data⟩ = none
    ∧ fetch_full_article (fun _ => none) = ⟨sentinelL, none, 1, []⟩
    ∧ (fetch_full_article (fun _ => some ⟨200, [], none⟩)).content = sentinelL
    ∧ (fetch_full_article (fun _ => some ⟨200, [sentinelL], none⟩)).content = sentinelL :=
  ⟨(C10_sentinel_equality_skip.1 downServer noClassify okModel "ts".data
      ⟨"Some headline".data, "u".data⟩).mpr rfl,
   C10_sentinel_equality_skip.2.2.1 (fun _ => none) rfl,
   C10_sentinel_equality_skip.2.2.2.1 (fun _ => some ⟨200, [], none⟩) _ rfl rfl rfl,
   C10_sentinel_equality_skip.2.2.2.2 (fun _ => some ⟨200, [sentinelL], none⟩) _ rfl rfl rfl⟩

end NewsPipeline
